import Mathlib

/-!
Verification of the PyTables node-hierarchy core and `VLArray`.

A shallow embedding, in Lean 4, of the hierarchy-management core of this
repository (`tables/Node.py`) and of the row operations of
`tables/VLArray.py`, together with theorems settling the frozen claims
about the natural-language specification.

Modelling conventions:

* Slash-delimited canonical path strings (`"/"`, `"/a"`, `"/a/b"`, ...)
  are embedded as lists of name segments (`[]`, `["a"]`, `["a", "b"]`).
  Node names never contain a slash (`checkNameValidity`, enforced by the
  naming layer of the repository), so this embedding is faithful:
  `joinPath parent name` is segment append, the string prefix test
  `path.startswith(group + "/")` is proper list-prefix, and
  `path.count("/")` of a non-root path is the segment count.
* Python exceptions are embedded as `Except`: an error result carries the
  container state at the moment of the raise (Python mutations performed
  before the raise persist).
* Calls into the storage engine (`hdf5Extension`), the undo log and the
  warning machinery are recorded in an observable event trace, so that
  ordering claims ("logged *before* the relocation") are statable.
* Code of the repository that the claims depend on but that is not under
  `src/` (the `File` registry, `Group` child bookkeeping, `undoredo`,
  `utils`) is modelled from the spec; each such definition carries a
  doc comment saying so.
-/

/-- A canonical absolute path, embedded as its list of name segments;
the root path `"/"` is `[]`. -/
abbrev HPath := List String

/-- Embeds `tables.utils.joinPath`.  Modelled from the spec: invariant (a),
"path is always `parentPath + "/" + name`, except the root whose path is
`"/"`"; on segment lists both cases are plain append. -/
def joinPath (parent : HPath) (name : String) : HPath := parent ++ [name]

/-- The parent part of `tables.utils.splitPath`: drop the last segment. -/
def parentPath (p : HPath) : HPath := p.dropLast

/-- `path.count("/")` of the string form of `p`: the root string `"/"`
contains one slash, a non-root canonical path one slash per segment. -/
def countSlash (p : HPath) : Nat := if p = [] then 1 else p.length

/-! ## The `VLArray` model (`tables/VLArray.py`)

Only the pieces the claims are about are embedded: the shape/compatibility
check `_checkShape`, the row-append pipeline of `append`, and the integer
branch of `__getitem__`.  The storage engine calls (`_append`,
`_readArray`) and the flavor conversions are abstracted by fault/length
parameters, since their bodies live in `hdf5Extension`/`utils`, outside
`src/`. -/

/-- Errors surfaced by the embedded `VLArray` operations. -/
inductive VLErr
  | notWritable   -- `_checkWritable` failure
  | typeError     -- VLString flavor given a non-string
  | valueError    -- encode/convert/shape failure
  | indexError    -- `__getitem__` bounds failure
  | engineError   -- failure inside the `_append` engine call
deriving DecidableEq

/-- The atom flavor cases that `append` dispatches on. -/
inductive VLFlavor
  | objectF       -- "Object": input pickled to a byte array
  | vlStringF     -- "VLString": input encoded to UTF-8 bytes
  | otherF        -- every other flavor
deriving DecidableEq

/-- The `VLArray` state visible to the embedded operations. -/
structure VLArrayState where
  nrows : Nat
  writable : Bool
  flavor : VLFlavor
  atomShape : List Nat     -- `self.atom.shape`, as a tuple of dims
deriving DecidableEq

/-- Embeds `VLArray._checkShape(nparr)`: decides how many atomic objects
a converted input of shape `shape` holds against `atomShape`.
`shape` is `nparr.shape`; a zero dimension means no objects. -/
def vl_checkShape (atomShape shape : List Nat) : Except VLErr Nat :=
  if shape.any (· = 0) then .ok 0
  else
    let shapelen := shape.length
    let atomshapelen := atomShape.length
    let diflen := shapelen - atomshapelen
    if shape = atomShape then .ok 1
    else if diflen = 1 ∧ shape.drop 1 = atomShape then .ok (shape.headD 0)
    else if atomShape = [1] ∧ shapelen = 1 then .ok (shape.headD 0)
    else .error .valueError

/-- The abstracted per-call input of `VLArray.append`: the observable
outcomes of the collaborator calls that `append` makes (`len(sequence)`,
pickling, UTF-8 encoding, `convertToNPAtom`, the `_append` engine call),
which are outside `src/`. -/
structure AppendInput where
  isSeq : Bool          -- `len(sequence)` succeeds
  extraObjects : Nat    -- `len(objects)` (deprecated varargs)
  seqLen : Nat          -- `len(sequence)` when it is a sequence
  isString : Bool       -- VLString flavor: input is a str/unicode
  encodeOk : Bool       -- VLString flavor: UTF-8 encoding succeeds
  encodedLen : Nat      -- VLString flavor: byte length after encoding
  pickleLen : Nat       -- Object flavor: byte length of the pickle
  convertOk : Bool      -- `convertToNPAtom` succeeds
  shape : List Nat      -- `nparr.shape` after conversion
  engineOk : Bool       -- the `_append` engine call succeeds
deriving DecidableEq

/-- The tail of the embedded `append`: the engine `_append` call followed
by `self.nrows += 1`.  Returns the new state and `nobjects`. -/
def vlAppendFinish (st : VLArrayState) (inp : AppendInput) (nobjects : Nat) :
    Except VLErr (VLArrayState × Nat) :=
  if !inp.engineOk then .error .engineError
  else .ok ({ st with nrows := st.nrows + 1 }, nobjects)

/-- The flavor-specific preparation step of `append`: Object inputs are
pickled, VLString inputs type-checked and UTF-8 encoded, anything else
kept as the (possibly tupled) sequence.  Returns `len(object)`. -/
def vlPrepare (st : VLArrayState) (inp : AppendInput) (objLen0 : Nat) :
    Except VLErr Nat :=
  match st.flavor with
  | .objectF => .ok inp.pickleLen
  | .vlStringF =>
      if !inp.isString then .error .typeError
      else if !inp.encodeOk then .error .valueError
      else .ok inp.encodedLen
  | .otherF => .ok objLen0

/-- Embeds `VLArray.append(sequence, *objects)`: writability check,
deprecated-varargs tupling, flavor-specific conversion of the input to a
byte array, conversion/shape check when the object is non-empty, the
engine `_append`, then `nrows += 1`. -/
def vlAppend (st : VLArrayState) (inp : AppendInput) :
    Except VLErr (VLArrayState × Nat) :=
  if !st.writable then .error .notWritable
  else
    -- `object = (sequence,) + tuple(objects)` on the deprecated path
    let useTuple := !inp.isSeq || inp.extraObjects > 0
    let objLen0 := if useTuple then 1 + inp.extraObjects else inp.seqLen
    (vlPrepare st inp objLen0).bind fun n =>
      (if n > 0 then
        (if !inp.convertOk then .error .valueError
         else vl_checkShape st.atomShape inp.shape)
       else .ok 0).bind fun nobjects =>
        vlAppendFinish st inp nobjects

/-- Embeds the integer-key branch of `VLArray.__getitem__`: the bound
check `key >= self.nrows` runs first, then a negative key is shifted by
`nrows`; the value returned here is the index handed to `self.read`
(whose own body lives outside `src/`). -/
def vlGetitemInt (nrows : Nat) (key : Int) : Except VLErr Int :=
  if key ≥ (nrows : Int) then .error .indexError
  else
    let key := if key < 0 then key + (nrows : Int) else key
    .ok key

/-! ## The node close model (`Node._f_close`)

`_f_close` touches only the node object itself (its attribute set, its
location fields, its `__dict__`), so it is embedded over a per-node state.
The actions performed by the first effective close are recorded as a
trace, in order, so that the "AttributeSet closed before detaching" part
of the spec is statable. -/

/-- One observable action of `Node._f_close`. -/
inductive CloseAct
  | closeAttrs    -- `self._v_attrs._f_close()`
  | delLocation   -- `self._g_delLocation()`
  | clearDict     -- `myDict.clear()`
deriving DecidableEq

/-- The per-node state that `Node._f_close` reads and writes. -/
structure NState where
  isOpen : Bool             -- `_f_isOpen()`: `_v_file` present and not None
  attrsMaterialized : Bool  -- `"_v_attrs" in self.__dict__`
  pathname : Option HPath   -- `_v_pathname`
  name : Option String      -- `_v_name`
  depth : Option Nat        -- `_v_depth`
  deleting : Bool           -- `_v__deleting`
deriving DecidableEq

/-- The state after `myDict.clear()`: every attribute of the node object
is removed, so the node reads as closed. -/
def closedNState : NState :=
  { isOpen := false, attrsMaterialized := false, pathname := none,
    name := none, depth := none, deleting := false }

/-- Embeds `Node._f_close`: a no-op on a closed node; otherwise closes
the `AttributeSet` if materialized, detaches the location, then clears
the object dictionary.  Never raises.  The second component is the trace
of actions performed. -/
def f_close (n : NState) : NState × List CloseAct :=
  if !n.isOpen then (n, [])
  else
    (closedNState,
     (if n.attrsMaterialized then [CloseAct.closeAttrs] else []) ++
       [CloseAct.delLocation, CloseAct.clearDict])

/-! ## The hierarchy container model (`tables/Node.py`)

The hierarchy-mutation operations (`_f_remove`, `_f_move`, `_f_copy`)
work against the container: the set of open nodes with their location
data, the writability and undo flags, the undo log and the shadow area.
A node is identified by its path; `oid` carries the location-independent
object identity (`_v_objectID`).  Engine calls, log writes and warnings
are appended to an event trace so that ordering is observable.

`File._refNode`/`_unrefNode`, `Group._g_refNode`/`_g_unrefNode`, the
group child map and `undoredo.moveToShadow` are not under `src/`; where
they decide behaviour they are modelled from the spec (see the doc
comments), with the visible hierarchy as the path-keyed registry: a name
is contained in a group iff the joined path is a live entry. -/

/-- The per-variant undo/redo capability flags of `Node`
(`_c_canUndoCreate`, `_c_canUndoRemove`, `_c_canUndoMove`). -/
structure Caps where
  canUndoCreate : Bool
  canUndoRemove : Bool
  canUndoMove : Bool
deriving DecidableEq

/-- One open node of the container: its location-dependent data
(`_v_pathname`, `_v_name`, `_v_depth`), its identity (`_v_objectID`) and
its variant data (group capability, undo capabilities). -/
structure HNode where
  oid : Nat
  path : HPath
  name : String
  depth : Nat
  isGroup : Bool
  caps : Caps
deriving DecidableEq

/-- An entry of the undo/redo log (`File._log`). -/
inductive HLog
  | create (p : HPath)
  | remove (p : HPath)
  | move (old new : HPath)
deriving DecidableEq

/-- A non-fatal diagnostic warning kind. -/
inductive WarnKind
  | undoCreate    -- "creation can not be undone nor redone ..."
  | undoRemove    -- "removal can not be undone nor redone ..."
  | undoMove      -- "movement can not be undone nor redone ..."
  | perfDepth     -- exceeding the recommended maximum tree depth
deriving DecidableEq

/-- One observable action of a hierarchy operation. -/
inductive HEvent
  | logged (e : HLog)             -- `file_._log(...)`
  | shadowMoved (p : HPath)       -- `undoredo.moveToShadow(file_, p)`
  | engineDeleted (p : HPath)     -- `_g_delete()`
  | engineMoved (old new : HPath) -- `_g_moveNode(...)`
  | warned (w : WarnKind)         -- `warnings.warn(...)`
  | depUpdated (p : HPath)        -- `_g_updateDependent()`
deriving DecidableEq

/-- The container state: writability and undo flags, the open nodes
(the path index), the undo log, the shadow area (keyed by the removed
node's pre-relocation path) and the event trace. -/
structure HFile where
  writable : Bool
  undoEnabled : Bool
  entries : List HNode
  log : List HLog
  shadow : List HPath
  events : List HEvent
deriving DecidableEq

/-- The error kinds surfaced by the hierarchy operations.  The source
raises `ClosedNodeError`, `IOError`, `NoSuchNodeError`, `TypeError`,
`NodeError` (for missing arguments, self-containment, name collisions,
non-empty groups and copy-onto-itself) and `AttributeError`; the model
separates the `NodeError` messages into distinct kinds. -/
inductive HErr
  | closedNode       -- `_g_checkOpen` failure
  | readOnly         -- `_checkWritable` failure
  | noSuchNode       -- `file_.getNode(newparent)` failure
  | notAGroup        -- `_g_checkGroup` failure
  | missingArgument  -- neither `newparent` nor `newname` given
  | selfContainment  -- `_g_checkNotContains` failure
  | nameCollision    -- `_g_maybeRemove` without `overwrite`
  | notEmpty         -- non-recursive removal of a non-empty group
  | sameNode         -- `_f_copy` onto itself
  | attributeError   -- location read on a node closed mid-operation
deriving DecidableEq

/-- Looks up the open node at path `p` (the path index of the file). -/
def findNode (f : HFile) (p : HPath) : Option HNode :=
  f.entries.find? (fun e => e.path == p)

/-- Embeds `Node._g_isDescendentOf(group)` for nodes of one container:
the source builds `prefix = group._v_pathname + "/"`, answers `True` for
`"//"` (every node descends from the root group), and otherwise tests
`self._v_pathname.startswith(prefix)` — on segment lists, a proper
list-prefix test. -/
def g_isDescendentOf (selfPath groupPath : HPath) : Bool :=
  if groupPath = [] then true
  else groupPath.isPrefixOf selfPath && groupPath != selfPath

/-- Does the group at `p` contain any child?  Modelled from the spec:
"Group — additionally owns a mapping from child name to child Node, used
for containment queries and recursive removal"; with the path-keyed
registry, containment is existence of a live entry strictly below `p`. -/
def hasChildren (f : HFile) (p : HPath) : Bool :=
  f.entries.any (fun e => p.isPrefixOf e.path && p != e.path)

/-- Drops the node at `p` and all its descendants from the entry list. -/
def removeSubtree (entries : List HNode) (p : HPath) : List HNode :=
  entries.filter (fun e => !(p.isPrefixOf e.path))

/-- Embeds `Node._g_remove(recursive)` together with the group-variant
behaviour.  Modelled from the spec for the `Group` override (not under
`src/`): "for group-type nodes with existing children, requires
`recursive=true` or fails with a 'not empty' error", and recursive
removal "removes all descendants".  The node is unregistered from its
parent, closed, and its physical representation destroyed
(`_g_delete`). -/
def g_remove (f : HFile) (e : HNode) (recursive : Bool) :
    Except (HErr × HFile) HFile :=
  if e.isGroup && hasChildren f e.path && !recursive then
    .error (.notEmpty, f)
  else
    .ok { f with entries := removeSubtree f.entries e.path,
                 events := f.events ++ [.engineDeleted e.path] }

/-- Embeds `tables.undoredo.moveToShadow(file_, path)`.  Modelled from
the spec: "`shadowMove(path)` relocates a removed node's representation
to a recoverable area": the subtree leaves the visible hierarchy, and
its physical representation is preserved in the shadow area instead of
being destroyed. -/
def moveToShadow (f : HFile) (p : HPath) : HFile :=
  { f with entries := removeSubtree f.entries p,
           shadow := f.shadow ++ [p],
           events := f.events ++ [.shadowMoved p] }

/-- Embeds `Node._f_remove(recursive)` on the node at path `p`: open and
writability checks, then — with undo/redo enabled — the branch on the
`_c_canUndoMove` capability: either log `REMOVE` (before the relocation,
with the pre-relocation path) and relocate to the shadow area, or warn
and remove outright. -/
def f_remove (f : HFile) (p : HPath) (recursive : Bool) :
    Except (HErr × HFile) HFile :=
  match findNode f p with
  | none => .error (.closedNode, f)
  | some e =>
    if !f.writable then .error (.readOnly, f)
    else if f.undoEnabled then
      if e.caps.canUndoMove then
        -- "Log *before* moving to use the right shadow name."
        moveToShadow
          { f with log := f.log ++ [.remove p],
                   events := f.events ++ [.logged (.remove p)] } p |> .ok
      else
        g_remove { f with events := f.events ++ [.warned .undoRemove] } e
          recursive
    else g_remove f e recursive

/-- Embeds `Node._g_updateLocation(newParentPath)` on one descendant of
a moved node: the path is rejoined from the parent's new path and the
node's own name, and the depth recomputed as
`newParentPath.count("/") + 1`. -/
def g_updateLocation (newParentPath : HPath) (e : HNode) : HNode :=
  { e with path := joinPath newParentPath e.name,
           depth := countSlash newParentPath + 1 }

/-- Embeds `Node._g_maybeRemove(parent, name, overwrite)`: if the
destination path is occupied, either raise a name-collision error or —
with `overwrite` — recursively remove the occupant
(`parent._f_getChild(name)._f_remove(True)`; `__contains__` and
`_f_getChild` are `Group` code outside `src/`, modelled from the spec as
existence of a live entry at the joined path). -/
def g_maybeRemove (f : HFile) (target : HPath) (overwrite : Bool) :
    Except (HErr × HFile) HFile :=
  match findNode f target with
  | some _ =>
    if !overwrite then .error (.nameCollision, f)
    else f_remove f target true
  | none => .ok f

/-- The net per-entry effect of `Node._g_move` of the node at `p` to
`target`: the moved node itself is relocated by `_g_setLocation`
(depth = new parent's depth + 1); each descendant is relocated by
`_g_updateLocation`.  The recursive driver over descendants is modelled
from the spec ("rebind location fields (path, depth) for this node and,
recursively, for every descendant"): parents are processed before their
children, so a descendant's `_g_updateLocation` receives its parent's
already-rewritten path, `target` followed by the parent's old suffix
below `p`. -/
def moveRewrite (p target : HPath) (newParentDepth : Nat) (newName : String)
    (e : HNode) : HNode :=
  if e.path = p then
    { e with path := target, name := newName, depth := newParentDepth + 1 }
  else if p.isPrefixOf e.path then
    g_updateLocation (target ++ (e.path.drop p.length).dropLast) e
  else e

/-- The final segment of `Node._f_move` once validation and
`_g_maybeRemove` are done: the undo-capability warning, `_g_move`
itself, and the `MOVE` logging.  `_g_move` starts by reading the node's
location attributes (`oldPathname = self._v_pathname`); if the node
object was closed because the removed occupant's subtree contained it,
that read raises `AttributeError` on the cleared object dictionary. -/
def f_move_finish (f1 : HFile) (p target : HPath) (peDepth : Nat)
    (newname : String) : Except (HErr × HFile) HFile :=
  match findNode f1 p with
  | none => .error (.attributeError, f1)
  | some e1 =>
    let f2 :=
      if f1.undoEnabled && !e1.caps.canUndoMove then
        { f1 with events := f1.events ++ [.warned .undoMove] }
      else f1
    let f3 :=
      { f2 with
        entries := f2.entries.map (moveRewrite p target peDepth newname),
        events := f2.events ++
          [.engineMoved p target, .depUpdated target] }
    if f3.undoEnabled && e1.caps.canUndoMove then
      .ok { f3 with log := f3.log ++ [.move p target],
                    events := f3.events ++ [.logged (.move p target)] }
    else .ok f3

/-- Embeds `Node._f_move(newparent, newname, overwrite)` on the node at
path `p`, inlining the delegated `_g_checkNotContains` and
`_g_maybeRemove` steps and delegating the rest to `f_move_finish`.
`None` arguments default to the current parent and name.  The model has
a single container, so the same-file test always passes.  An error
result carries the container state at the raise. -/
def f_move (f : HFile) (p : HPath) (newparentArg : Option HPath)
    (newnameArg : Option String) (overwrite : Bool) :
    Except (HErr × HFile) HFile :=
  match findNode f p with
  | none => .error (.closedNode, f)
  | some e =>
    if newparentArg = none ∧ newnameArg = none then .error (.missingArgument, f)
    else
      let newparent := newparentArg.getD (parentPath p)
      let newname := newnameArg.getD e.name
      match findNode f newparent with
      | none => .error (.noSuchNode, f)
      | some pe =>
        if !pe.isGroup then .error (.notAGroup, f)
        else if !f.writable then .error (.readOnly, f)
        else if newparent = parentPath p ∧ newname = e.name then
          -- moving a node over itself is an allowed no-op
          .ok f
        else if newparent = p || g_isDescendentOf newparent p then
          .error (.selfContainment, f)
        else
          let target := joinPath newparent newname
          (g_maybeRemove f target overwrite).bind fun f1 =>
            f_move_finish f1 p target pe.depth newname

/-- Embeds `Node._f_copy(newparent, newname, overwrite, recursive)` up
to the delegation to the per-variant `_g_copy` (left abstract by
`Node`); a successful result records the validated destination path.
Note that `_f_copy` performs no writability check of its own, that the
copy-onto-itself test runs before the recursive self-containment check,
and that the latter only runs for recursive copies. -/
def f_copy (f : HFile) (p : HPath) (newparentArg : Option HPath)
    (newnameArg : Option String) (overwrite recursive : Bool) :
    Except (HErr × HFile) (HFile × HPath) :=
  match findNode f p with
  | none => .error (.closedNode, f)
  | some e =>
    if newparentArg = none ∧ newnameArg = none then .error (.missingArgument, f)
    else
      let dstParent := newparentArg.getD (parentPath p)
      let dstName := newnameArg.getD e.name
      match findNode f dstParent with
      | none => .error (.noSuchNode, f)
      | some pe =>
        if !pe.isGroup then .error (.notAGroup, f)
        else if dstParent = parentPath p ∧ dstName = e.name then
          .error (.sameNode, f)
        else if recursive && (dstParent = p || g_isDescendentOf dstParent p) then
          .error (.selfContainment, f)
        else
          let target := joinPath dstParent dstName
          (g_maybeRemove f target overwrite).bind fun f1 =>
            -- delegation to the per-variant `_g_copy`
            .ok (f1, target)

/-- Well-formedness of a container: depths match path lengths, the last
segment of a non-root path is the node's name, every non-root entry has
its parent entry present, and paths and object identities are unique. -/
def WF (f : HFile) : Prop :=
  (∀ e ∈ f.entries, e.depth = e.path.length) ∧
  (∀ e ∈ f.entries, e.path ≠ [] → e.path = e.path.dropLast ++ [e.name]) ∧
  (∀ e ∈ f.entries, e.path ≠ [] → ∃ pe ∈ f.entries, pe.path = e.path.dropLast) ∧
  (∀ e1 ∈ f.entries, ∀ e2 ∈ f.entries, e1.path = e2.path → e1 = e2) ∧
  (∀ e1 ∈ f.entries, ∀ e2 ∈ f.entries, e1.oid = e2.oid → e1 = e2)

/-! ## The node construction model (`Node.__init__`)

`__init__` registers the node (in the parent group for new nodes, and in
the file's path index via `_g_setLocation`) and only then runs the
fallible engine steps (`_g_new`, `_g_create`/`_g_open`,
`_g_postInitHook`) inside a `try` whose handler closes the node and
re-raises.  The registries are kept as two separate lists here because
the claim distinguishes them. -/

/-- The registry state that `Node.__init__` touches. -/
structure IFile where
  writable : Bool
  undoEnabled : Bool
  aliveNodes : List HPath           -- the file's path index
  children : List (HPath × String)  -- parent child-map registrations
  log : List HLog
  warnings : List WarnKind
deriving DecidableEq

/-- The error kinds raised by `Node.__init__`. -/
inductive InitErr
  | readOnly        -- `file_._checkWritable()` failure
  | childCollision  -- `parentNode._g_refNode` name collision
  | engineNew       -- `_g_new` raises
  | engineCreate    -- `_g_create` raises
  | engineOpen      -- `_g_open` raises
  | postInitHook    -- `_g_postInitHook` raises
deriving DecidableEq

/-- Fault injection for the engine steps of `__init__` (their bodies are
`hdf5Extension` code, outside `src/`; any of them may raise). -/
structure InitFaults where
  failNew : Bool
  failCreateOpen : Bool
  failHook : Bool
deriving DecidableEq

/-- Modelled from the spec: the configured maximum recommended tree
depth (`tables.constants.MAX_TREE_DEPTH`, not under `src/`); it only
gates a performance warning. -/
def MAX_TREE_DEPTH : Nat := 256

/-- `Node._f_close` as invoked from the `except` clause of `__init__` on
the half-constructed node: `_g_delLocation` removes the file reference
(`File._unrefNode` — modelled from the spec: "PathIndex entry — ...
insertion happens on creation/open, removal on close") and the
registration in the parent child map is dropped (modelled from the spec:
"Partial failure during creation/opening is always unwound by closing
the half-constructed node ... guaranteeing no leaked registry
entries"). -/
def initClose (st : IFile) (parent : HPath) (name : String) : IFile :=
  { st with
    aliveNodes := st.aliveNodes.filter (fun q => q ≠ joinPath parent name),
    children := st.children.filter (fun c => c ≠ (parent, name)) }

/-- `parentNode._g_refNode(self, ptname, validate)` as called by
`__init__` for new nodes (opened nodes are already known by their parent
group).  Modelled from the spec: "Registers reference in parent and in
PathIndex *before* invoking the storage-engine creation call"; a name
collision in the parent raises. -/
def initRefNode (st0 : IFile) (parent : HPath) (name : String) (new : Bool) :
    Except (InitErr × IFile) IFile :=
  if new then
    if (parent, name) ∈ st0.children then .error (.childCollision, st0)
    else .ok { st0 with children := st0.children ++ [(parent, name)] }
  else .ok st0

/-- Embeds `Node.__init__(parentNode, name, log)` over the registry
state (the parent is assumed checked as an open group: `_g_checkGroup`
and `_g_checkOpen` precede everything): the writability gate for new
nodes, the undo-capability warning, `_g_refNode` registration in the
parent (new nodes only), `_g_setLocation` (path-index insertion,
depth = parent depth + 1, depth warning), the fallible engine steps with
the close-and-reraise unwinding, and creation logging. -/
def nodeInit (st : IFile) (parent : HPath) (parentDepth : Nat) (name : String)
    (new : Bool) (caps : Caps) (fi : InitFaults) (log : Bool) :
    Except (InitErr × IFile) (IFile × HPath × Nat) :=
  if new ∧ ¬st.writable then .error (.readOnly, st)
  else
    let st0 := if st.undoEnabled ∧ ¬caps.canUndoCreate
               then { st with warnings := st.warnings ++ [.undoCreate] }
               else st
    (initRefNode st0 parent name new).bind fun st1 =>
      let path := joinPath parent name
      let st2 := { st1 with aliveNodes := st1.aliveNodes ++ [path] }
      let st3 := if parentDepth ≥ MAX_TREE_DEPTH
                 then { st2 with warnings := st2.warnings ++ [.perfDepth] }
                 else st2
      if fi.failNew then .error (.engineNew, initClose st3 parent name)
      else if fi.failCreateOpen then
        .error ((if new then .engineCreate else .engineOpen),
                initClose st3 parent name)
      else if fi.failHook then .error (.postInitHook, initClose st3 parent name)
      else
        let st4 := if new ∧ log ∧ st3.undoEnabled ∧ caps.canUndoCreate
                   then { st3 with log := st3.log ++ [.create path] }
                   else st3
        .ok (st4, path, parentDepth + 1)

/-! ## Concrete containers used by counterexamples and witnesses -/

/-- A root group entry with full undo capabilities. -/
def rootNode : HNode := ⟨0, [], "/", 0, true, ⟨true, true, true⟩⟩

/-- C1 concrete container: one leaf `/x` whose variant supports undoable
removal (`_c_canUndoRemove = true`) but not undoable movement
(`_c_canUndoMove = false`), in a writable file with undo/redo enabled. -/
def c1File : HFile :=
  { writable := true, undoEnabled := true,
    entries := [rootNode, ⟨1, ["x"], "x", 1, false, ⟨false, true, false⟩⟩],
    log := [], shadow := [], events := [] }

/-- C3/C5 concrete container: groups `/g1` and `/g1/g2` and a leaf
`/g1/g2/x`, writable, undo/redo disabled. -/
def c3File : HFile :=
  { writable := true, undoEnabled := false,
    entries := [rootNode,
                ⟨1, ["g1"], "g1", 1, true, ⟨true, true, true⟩⟩,
                ⟨2, ["g1", "g2"], "g2", 2, true, ⟨true, true, true⟩⟩,
                ⟨3, ["g1", "g2", "x"], "x", 3, false, ⟨true, true, true⟩⟩],
    log := [], shadow := [], events := [] }

/-- C6 counterexample container: a group `/a` with a leaf child `/a/b`,
writable, undo/redo disabled. -/
def c6File : HFile :=
  { writable := true, undoEnabled := false,
    entries := [rootNode,
                ⟨1, ["a"], "a", 1, true, ⟨true, true, true⟩⟩,
                ⟨2, ["a", "b"], "b", 2, false, ⟨true, true, true⟩⟩],
    log := [], shadow := [], events := [] }

/-- The container `c3File` after moving `/g1` to the root under the name
`h` (the expected result used by the C3 witness). -/
def c3MovedFile : HFile :=
  { writable := true, undoEnabled := false,
    entries := [rootNode,
                ⟨1, ["h"], "h", 1, true, ⟨true, true, true⟩⟩,
                ⟨2, ["h", "g2"], "g2", 2, true, ⟨true, true, true⟩⟩,
                ⟨3, ["h", "g2", "x"], "x", 3, false, ⟨true, true, true⟩⟩],
    log := [], shadow := [],
    events := [.engineMoved ["g1"] ["h"], .depUpdated ["h"]] }

/-- C6 witness container: two leaves `/a` and `/b` under the root,
writable, undo/redo disabled (the spec scenario). -/
def c6wFile : HFile :=
  { writable := true, undoEnabled := false,
    entries := [rootNode,
                ⟨1, ["a"], "a", 1, false, ⟨true, true, true⟩⟩,
                ⟨2, ["b"], "b", 1, false, ⟨true, true, true⟩⟩],
    log := [], shadow := [], events := [] }

/-- C8: node close is idempotent: a second (hence any later) close is a
no-op with no state change, no action and no error; and a first close of
an open node with a materialized `AttributeSet` closes that set before
detaching the location. -/
theorem f_close_idempotent (n : NState) :
    f_close (f_close n).1 = ((f_close n).1, []) ∧
    (n.isOpen = true → n.attrsMaterialized = true →
      (f_close n).2 =
        [CloseAct.closeAttrs, CloseAct.delLocation, CloseAct.clearDict]) := by
  unfold f_close closedNState
  constructor
  · split
    · simp_all
    · simp
  · intro h1 h2
    simp [h1, h2]

/-- Witness for C8 at a concrete open node with a materialized
attribute set. -/
theorem f_close_idempotent_witness :
    f_close (f_close ⟨true, true, some [], some "/", some 0, false⟩).1 =
      ((f_close ⟨true, true, some [], some "/", some 0, false⟩).1, []) ∧
    (f_close ⟨true, true, some [], some "/", some 0, false⟩).2 =
      [CloseAct.closeAttrs, CloseAct.delLocation, CloseAct.clearDict] :=
  ⟨(f_close_idempotent ⟨true, true, some [], some "/", some 0, false⟩).1,
   (f_close_idempotent ⟨true, true, some [], some "/", some 0, false⟩).2 rfl rfl⟩

/-- Inverts a successful `Except.bind`. -/
theorem exceptBind_ok {ε α β : Type} {x : Except ε α} {f : α → Except ε β} {b : β}
    (h : x.bind f = .ok b) : ∃ a, x = .ok a ∧ f a = .ok b := by
  cases x with
  | error e => simp [Except.bind] at h
  | ok a => exact ⟨a, rfl, by simpa [Except.bind] using h⟩

/-- C9: every successful `VLArray.append` call increments `nrows` by
exactly one, whatever number of atomic objects the appended sequence
held. -/
theorem vlAppend_increments_nrows_by_one (st : VLArrayState) (inp : AppendInput)
    (st2 : VLArrayState) (nobjects : Nat)
    (h : vlAppend st inp = .ok (st2, nobjects)) :
    st2.nrows = st.nrows + 1 := by
  unfold vlAppend at h
  split at h
  · simp at h
  · obtain ⟨n, hp, h⟩ := exceptBind_ok h
    obtain ⟨m, hq, h⟩ := exceptBind_ok h
    unfold vlAppendFinish at h
    split at h
    · simp at h
    · simp only [Except.ok.injEq, Prod.mk.injEq] at h
      rw [← h.1]

/-- Witness for C9: appending an empty sequence (zero atomic objects)
still adds exactly one (empty) row. -/
theorem vlAppend_increments_nrows_by_one_witness :
    vlAppend ⟨5, true, .otherF, [2]⟩ ⟨true, 0, 0, true, true, 0, 0, true, [], true⟩ =
      .ok (⟨6, true, .otherF, [2]⟩, 0) ∧
    (⟨6, true, .otherF, [2]⟩ : VLArrayState).nrows = (5 : Nat) + 1 :=
  ⟨rfl, vlAppend_increments_nrows_by_one ⟨5, true, .otherF, [2]⟩
    ⟨true, 0, 0, true, true, 0, 0, true, [], true⟩ ⟨6, true, .otherF, [2]⟩ 0 rfl⟩

/-- C10: for an integer key, `VLArray.__getitem__` raises `IndexError`
when `key >= nrows`; a key in `[-nrows, 0)` is normalized to
`key + nrows`, an in-range row index handed to `read`; and since the
bound check runs before the normalization, a key below `-nrows` is not
rejected here: a still-negative index is handed to `read`. -/
theorem vlGetitemInt_spec (nrows : Nat) (key : Int) :
    (key ≥ (nrows : Int) → vlGetitemInt nrows key = .error .indexError) ∧
    (-(nrows : Int) ≤ key → key < 0 →
      vlGetitemInt nrows key = .ok (key + (nrows : Int)) ∧
      0 ≤ key + (nrows : Int) ∧ key + (nrows : Int) < (nrows : Int)) ∧
    (key < -(nrows : Int) →
      vlGetitemInt nrows key = .ok (key + (nrows : Int)) ∧
      key + (nrows : Int) < 0) := by
  unfold vlGetitemInt
  refine ⟨fun h => by simp [h], fun h1 h2 => ⟨?_, by omega, by omega⟩,
    fun h => ⟨?_, by omega⟩⟩
  · rw [if_neg (by omega), if_pos h2]
  · rw [if_neg (by omega), if_pos (by omega)]

/-- Witness for C10 at `nrows = 2`, `key = -5`: the key is below
`-nrows`, no `IndexError` is raised, and the still-negative index
`-5 + 2` is handed to `read`. -/
theorem vlGetitemInt_spec_witness :
    vlGetitemInt 2 (-5) = .ok ((-5 : Int) + (2 : Int)) ∧
    (-5 : Int) + (2 : Int) < 0 :=
  (vlGetitemInt_spec 2 (-5)).2.2 (by decide)

/-! ## Helper lemmas -/

/-- A successful `findNode` returns an entry of the file at that path. -/
theorem findNode_eq_some {f : HFile} {p : HPath} {e : HNode}
    (h : findNode f p = some e) : e ∈ f.entries ∧ e.path = p := by
  unfold findNode at h
  refine ⟨List.mem_of_find?_eq_some h, ?_⟩
  simpa using List.find?_some h

/-- `find?` by path returns the unique entry with that path. -/
theorem find_path_unique {l : List HNode} {x : HNode} {p : HPath}
    (hx : x ∈ l) (hp : x.path = p) (hu : ∀ y ∈ l, y.path = p → y = x) :
    l.find? (fun e => e.path == p) = some x := by
  induction l with
  | nil => cases hx
  | cons a t ih =>
    by_cases ha : a.path = p
    · rw [List.find?_cons_of_pos t (by simpa using ha)]
      rw [hu a (List.mem_cons_self a t) ha]
    · rw [List.find?_cons_of_neg t (by simpa using ha)]
      rcases List.mem_cons.mp hx with h | h
      · exact absurd (h ▸ hp) ha
      · exact ih h (fun y hy hyp => hu y (List.mem_cons_of_mem a hy) hyp)

/-- C4: moving an open node of a writable container to its current
parent under its current name is an allowed no-op that succeeds
trivially: the whole container — every path and depth, the entries, the
undo/redo log, the shadow area and the engine/event trace — is returned
unchanged. -/
theorem f_move_over_itself_noop (f : HFile) (p : HPath) (e pe : HNode)
    (overwrite : Bool)
    (hfind : findNode f p = some e)
    (hpe : findNode f (parentPath p) = some pe)
    (hg : pe.isGroup = true) (hw : f.writable = true) :
    f_move f p (some (parentPath p)) (some e.name) overwrite = .ok f := by
  simp [f_move, hfind, hpe, hg, hw]

/-- Witness for C4: renaming the leaf `/a` of the two-leaf container to
its own parent and name is a successful no-op. -/
theorem f_move_over_itself_noop_witness :
    f_move c6wFile ["a"] (some (parentPath ["a"])) (some "a") false =
      .ok c6wFile :=
  f_move_over_itself_noop c6wFile ["a"]
    ⟨1, ["a"], "a", 1, false, ⟨true, true, true⟩⟩ rootNode false rfl rfl rfl rfl

/-- C5: moving a node `N` into itself or into any of its descendants
(the target parent's path extends `N`'s path) fails with the
self-containment `NodeError` of `_g_checkNotContains`, and the container
is left unchanged. -/
theorem f_move_into_self_or_descendant_fails (f : HFile) (p q : HPath)
    (nn : String) (e pe : HNode) (overwrite : Bool)
    (hfind : findNode f p = some e) (hq : findNode f q = some pe)
    (hg : pe.isGroup = true) (hw : f.writable = true)
    (hroot : p ≠ []) (hpre : p <+: q) :
    f_move f p (some q) (some nn) overwrite = .error (.selfContainment, f) := by
  obtain ⟨t, ht⟩ := hpre
  have hlen : p.length ≤ q.length := by
    rw [← ht, List.length_append]; omega
  have hp1 : 1 ≤ p.length := by
    cases p with
    | nil => exact absurd rfl hroot
    | cons a t2 => simp
  have hne' : ¬(q = parentPath p ∧ nn = e.name) := by
    rintro ⟨h1, -⟩
    have : q.length = p.length - 1 := by
      rw [h1]; simp [parentPath]
    omega
  have hdesc : (decide (q = p) || g_isDescendentOf q p) = true := by
    by_cases hqp : q = p
    · simp [hqp]
    · have h1 : p.isPrefixOf q = true := List.isPrefixOf_iff_prefix.mpr ⟨t, ht⟩
      have h2 : p ≠ q := fun h => hqp h.symm
      simp [g_isDescendentOf, hroot, h1, h2]
  simp [f_move, hfind, hq, hg, hw, hne', hdesc]

/-- Witness for C5: the spec scenario — moving the group `/g1` into its
grandchild-level descendant `/g1/g2` fails with the self-containment
error and leaves the container unchanged. -/
theorem f_move_into_self_or_descendant_fails_witness :
    f_move c3File ["g1"] (some ["g1", "g2"]) (some "g1") false =
      .error (.selfContainment, c3File) :=
  f_move_into_self_or_descendant_fails c3File ["g1"] ["g1", "g2"] "g1"
    ⟨1, ["g1"], "g1", 1, true, ⟨true, true, true⟩⟩
    ⟨2, ["g1", "g2"], "g2", 2, true, ⟨true, true, true⟩⟩
    false rfl rfl rfl rfl (by simp) ⟨["g2"], rfl⟩

/-- C7: copying any open node onto itself — same parent, same name, even
for a leaf and even though the same move would be an allowed no-op —
fails with the "source and destination are the same node" `NodeError`,
before any mutation. -/
theorem f_copy_onto_itself_fails (f : HFile) (p : HPath) (e pe : HNode)
    (overwrite recursive : Bool)
    (hfind : findNode f p = some e)
    (hpe : findNode f (parentPath p) = some pe) (hg : pe.isGroup = true) :
    f_copy f p (some (parentPath p)) (some e.name) overwrite recursive =
      .error (.sameNode, f) := by
  simp [f_copy, hfind, hpe, hg]

/-- Witness for C7: copying the leaf `/a` onto itself fails even though
the container is otherwise untouched (note: no writability needed). -/
theorem f_copy_onto_itself_fails_witness :
    f_copy c6wFile ["a"] (some (parentPath ["a"])) (some "a") false false =
      .error (.sameNode, c6wFile) :=
  f_copy_onto_itself_fails c6wFile ["a"]
    ⟨1, ["a"], "a", 1, false, ⟨true, true, true⟩⟩ rootNode false false rfl rfl rfl

/-- C1 counterexample: `_f_remove` does not branch on the undoable-removal
capability.  The leaf `/x` of `c1File` *does* support undoable removal
(`_c_canUndoRemove = true`), the container is writable with undo/redo
enabled — yet `_f_remove` warns and removes it outright (engine delete,
no shadow relocation, no `REMOVE` log entry), because the code tests
`_c_canUndoMove`, which is false for this variant. -/
theorem f_remove_undo_counterexample :
    (⟨1, ["x"], "x", 1, false, ⟨false, true, false⟩⟩ : HNode).caps.canUndoRemove
        = true ∧
    c1File.undoEnabled = true ∧ c1File.writable = true ∧
    findNode c1File ["x"] = some ⟨1, ["x"], "x", 1, false, ⟨false, true, false⟩⟩ ∧
    f_remove c1File ["x"] false =
      .ok { c1File with
            entries := [rootNode],
            events := [.warned .undoRemove, .engineDeleted ["x"]] } ∧
    ({ c1File with
       entries := [rootNode],
       events := [.warned .undoRemove, .engineDeleted ["x"]] } : HFile).shadow
        = [] ∧
    ({ c1File with
       entries := [rootNode],
       events := [.warned .undoRemove, .engineDeleted ["x"]] } : HFile).log
        = [] := by
  refine ⟨rfl, rfl, rfl, rfl, ?_, rfl, rfl⟩
  rfl

/-- C1 (amended): for an open node in a writable container with undo/redo
enabled, `_f_remove` branches on the *undoable-movement* capability
(`_c_canUndoMove`, the one backing the shadow relocation), not on
`_c_canUndoRemove`: if the variant supports undoable movement, a
`REMOVE` entry carrying the pre-relocation path is logged first and the
representation is then relocated to the shadow area (preserved, never
engine-deleted); otherwise a non-fatal warning is emitted and the node
is removed outright. -/
theorem f_remove_branches_on_canUndoMove (f : HFile) (p : HPath)
    (recursive : Bool) (e : HNode)
    (hfind : findNode f p = some e) (hw : f.writable = true)
    (hu : f.undoEnabled = true) :
    (e.caps.canUndoMove = true →
      f_remove f p recursive =
        .ok { f with
              entries := removeSubtree f.entries p,
              log := f.log ++ [.remove p],
              shadow := f.shadow ++ [p],
              events := (f.events ++ [.logged (.remove p)]) ++ [.shadowMoved p] }) ∧
    (e.caps.canUndoMove = false →
      (e.isGroup && hasChildren f p && !recursive) = false →
      f_remove f p recursive =
        .ok { f with
              entries := removeSubtree f.entries p,
              events := (f.events ++ [.warned .undoRemove]) ++
                [.engineDeleted p] }) := by
  obtain ⟨hmem, hpath⟩ := findNode_eq_some hfind
  constructor
  · intro hcan
    simp [f_remove, hfind, hw, hu, hcan, moveToShadow]
  · intro hcan hne
    simp only [f_remove, hfind, hw, hu, hcan, Bool.not_true, Bool.false_eq_true,
      if_false, if_true, Bool.not_false]
    unfold g_remove
    rw [hpath]
    split
    · rename_i hcontra
      have hsame : (e.isGroup && hasChildren f p && !recursive) = true := hcontra
      exact absurd (hne ▸ hsame) (by simp)
    · simp [hw, hu]

/-- Witness for the amended C1: in the same container, removing the root
group (whose variant has `_c_canUndoMove = true`) logs `REMOVE` and
relocates to the shadow area; removing the leaf `/x` (whose variant has
`_c_canUndoMove = false`) warns and deletes outright. -/
theorem f_remove_branches_on_canUndoMove_witness :
    f_remove c1File [] false =
      .ok { c1File with
            entries := removeSubtree c1File.entries [],
            log := c1File.log ++ [.remove []],
            shadow := c1File.shadow ++ [[]],
            events := (c1File.events ++ [.logged (.remove [])]) ++
              [.shadowMoved []] } ∧
    f_remove c1File ["x"] false =
      .ok { c1File with
            entries := removeSubtree c1File.entries ["x"],
            events := (c1File.events ++ [.warned .undoRemove]) ++
              [.engineDeleted ["x"]] } :=
  ⟨(f_remove_branches_on_canUndoMove c1File [] false rootNode rfl rfl rfl).1 rfl,
   (f_remove_branches_on_canUndoMove c1File ["x"] false
      ⟨1, ["x"], "x", 1, false, ⟨false, true, false⟩⟩ rfl rfl rfl).2 rfl rfl⟩

/-- After `initClose`, neither the path-index entry nor the parent
child-map registration of the half-constructed node remains. -/
theorem initClose_not_alive (st : IFile) (parent : HPath) (name : String) :
    joinPath parent name ∉ (initClose st parent name).aliveNodes ∧
    (parent, name) ∉ (initClose st parent name).children := by
  constructor
  · intro hmem
    rw [initClose] at hmem
    simp only [List.mem_filter, decide_eq_true_eq] at hmem
    exact hmem.2 rfl
  · intro hmem
    rw [initClose] at hmem
    simp only [List.mem_filter, decide_eq_true_eq] at hmem
    exact hmem.2 rfl

/-- C2: if node construction reaches the registered stage (the
writability gate passed for new nodes, the parent registration took) and
any later step — the `_g_new` attribute update, the engine
`_g_create`/`_g_open`, or `_g_postInitHook` — fails, then `__init__`
closes the half-constructed node before re-raising the original error:
the surfaced error is the first failing step's own, and the resulting
state holds neither a path-index entry nor a parent child-map
registration for the node. -/
theorem nodeInit_failure_unwinds (st : IFile) (parent : HPath)
    (parentDepth : Nat) (name : String) (new : Bool) (caps : Caps)
    (fi : InitFaults) (log : Bool)
    (hw : new = true → st.writable = true)
    (hc : new = true → (parent, name) ∉ st.children)
    (hfail : fi.failNew = true ∨ fi.failCreateOpen = true ∨ fi.failHook = true) :
    match nodeInit st parent parentDepth name new caps fi log with
    | .ok _ => False
    | .error (err, st2) =>
        err = (if fi.failNew then .engineNew
               else if fi.failCreateOpen then
                 (if new then .engineCreate else .engineOpen)
               else .postInitHook) ∧
        joinPath parent name ∉ st2.aliveNodes ∧
        (parent, name) ∉ st2.children := by
  by_cases h1 : st.undoEnabled = true <;>
    by_cases h1b : caps.canUndoCreate = true <;>
    cases hn : new <;>
    by_cases h2 : fi.failNew = true <;>
    by_cases h3 : fi.failCreateOpen = true <;>
    by_cases h4 : fi.failHook = true <;>
    by_cases h5 : parentDepth ≥ MAX_TREE_DEPTH <;>
    first
    | (exfalso
       rcases hfail with h | h | h <;> simp_all
       done)
    | (simp [nodeInit, initRefNode, Except.bind, initClose,
        hn, h1, h1b, h2, h3, h4, h5, hw hn, hc hn]
       done)
    | (simp [nodeInit, initRefNode, Except.bind, initClose,
        hn, h1, h1b, h2, h3, h4, h5]
       done)

/-- Witness for C2: creating `/x` in an empty writable container with a
failing engine `_g_create` surfaces the creation error itself, with no
path-index entry and no parent registration left behind. -/
theorem nodeInit_failure_unwinds_witness :
    nodeInit ⟨true, false, [], [], [], []⟩ [] 0 "x" true ⟨false, false, false⟩
        ⟨false, true, false⟩ true =
      .error (.engineCreate, ⟨true, false, [], [], [], []⟩) ∧
    joinPath [] "x" ∉ (⟨true, false, [], [], [], []⟩ : IFile).aliveNodes ∧
    ([], "x") ∉ (⟨true, false, [], [], [], []⟩ : IFile).children := by
  obtain ⟨-, h2, h3⟩ := nodeInit_failure_unwinds ⟨true, false, [], [], [], []⟩
    [] 0 "x" true ⟨false, false, false⟩ ⟨false, true, false⟩ true
    (fun _ => rfl) (fun _ => by simp) (Or.inr (Or.inl rfl))
  exact ⟨rfl, h2, h3⟩

/-- `moveRewrite` never changes a node's identity. -/
theorem moveRewrite_oid (p target : HPath) (d : Nat) (nm : String)
    (e : HNode) : (moveRewrite p target d nm e).oid = e.oid := by
  unfold moveRewrite g_updateLocation
  split
  · rfl
  · split <;> rfl

/-- Recursive removal (`_f_remove(True)`) of an open node in a writable
container always succeeds, and in each undo branch the result prunes
exactly the subtree of the removed node from the entries while keeping
the container flags. -/
theorem f_remove_ok_shapes (f : HFile) (q : HPath) (oe : HNode)
    (hf : findNode f q = some oe) (hw2 : f.writable = true) :
    (f.undoEnabled = true → oe.caps.canUndoMove = true →
      f_remove f q true =
        .ok (moveToShadow
          { f with log := f.log ++ [.remove q],
                   events := f.events ++ [.logged (.remove q)] } q)) ∧
    (f.undoEnabled = true → oe.caps.canUndoMove = false →
      f_remove f q true =
        .ok { f with entries := removeSubtree f.entries oe.path,
                     events := (f.events ++ [.warned .undoRemove]) ++
                       [.engineDeleted oe.path] }) ∧
    (f.undoEnabled = false →
      f_remove f q true =
        .ok { f with entries := removeSubtree f.entries oe.path,
                     events := f.events ++ [.engineDeleted oe.path] }) := by
  refine ⟨fun hu hcm => ?_, fun hu hcm => ?_, fun hu => ?_⟩
  · simp [f_remove, hf, hw2, hu, hcm, g_remove]
  · simp [f_remove, hf, hw2, hu, hcm, g_remove]
  · simp [f_remove, hf, hw2, hu, g_remove]

/-- When the moved node is still present after the `_g_maybeRemove`
stage, the tail of `_f_move` succeeds and rewrites every entry through
`moveRewrite`. -/
theorem f_move_finish_ok (f1 : HFile) (p target : HPath) (peDepth : Nat)
    (nm : String) (e1 : HNode) (hfind : findNode f1 p = some e1) :
    ∃ f2, f_move_finish f1 p target peDepth nm = .ok f2 ∧
      f2.entries = f1.entries.map (moveRewrite p target peDepth nm) := by
  by_cases hA : (f1.undoEnabled && !e1.caps.canUndoMove) = true <;>
    by_cases hB : (f1.undoEnabled && e1.caps.canUndoMove) = true <;>
    (simp [f_move_finish, hfind, hA, hB]
     try exact ⟨_, rfl, rfl⟩)

/-- C6 counterexample: with `overwrite`, moving a node onto a destination
occupied by its own *ancestor* does not succeed.  In `c6File`, moving
`/a/b` to the root under the name `a` (destination occupied by the group
`/a`, a different node) first removes `/a` recursively — which closes
`/a/b` itself — and the subsequent location read of `_g_move` then
raises instead of completing the move: the destination does not end up
holding the moved node, contradicting the claim as stated. -/
theorem f_move_occupied_counterexample :
    findNode c6File (joinPath [] "a") =
      some ⟨1, ["a"], "a", 1, true, ⟨true, true, true⟩⟩ ∧
    findNode c6File ["a", "b"] =
      some ⟨2, ["a", "b"], "b", 2, false, ⟨true, true, true⟩⟩ ∧
    (⟨1, ["a"], "a", 1, true, ⟨true, true, true⟩⟩ : HNode) ≠
      ⟨2, ["a", "b"], "b", 2, false, ⟨true, true, true⟩⟩ ∧
    c6File.writable = true ∧
    f_move c6File ["a", "b"] (some []) (some "a") true =
      .error (.attributeError,
        { c6File with entries := [rootNode],
                      events := [.engineDeleted ["a"]] }) := by
  refine ⟨rfl, rfl, by decide, rfl, ?_⟩
  rfl

/-- C6 (amended): moving a node onto a destination `(q, nm)` occupied by
another node fails with the name-collision error when `overwrite` is not
requested; when `overwrite` is requested — provided the occupant is not
an ancestor of the moved node — the occupant's subtree is recursively
removed first and the move then succeeds: the destination path
afterwards holds the moved node (same identity), and the occupant's
identity is gone from the container. -/
theorem f_move_occupied_spec (f : HFile) (p q : HPath) (nm : String)
    (e pe oe : HNode) (hwf : WF f)
    (hfind : findNode f p = some e) (hq : findNode f q = some pe)
    (hg : pe.isGroup = true) (hw : f.writable = true)
    (hocc : findNode f (joinPath q nm) = some oe) (hne : oe.path ≠ p)
    (hnc : ¬(q = p ∨ g_isDescendentOf q p = true))
    (hanc : (joinPath q nm).isPrefixOf p = false) :
    f_move f p (some q) (some nm) false = .error (.nameCollision, f) ∧
    ∃ f2, f_move f p (some q) (some nm) true = .ok f2 ∧
      (moveRewrite p (joinPath q nm) pe.depth nm e) ∈ f2.entries ∧
      (moveRewrite p (joinPath q nm) pe.depth nm e).path = joinPath q nm ∧
      (moveRewrite p (joinPath q nm) pe.depth nm e).oid = e.oid ∧
      (∀ x ∈ f2.entries, x.oid ≠ oe.oid) := by
  obtain ⟨hmem, hpath⟩ := findNode_eq_some hfind
  obtain ⟨homem, hopath⟩ := findNode_eq_some hocc
  obtain ⟨hdepth, hcanon, hclosure, hpuniq, houniq⟩ := hwf
  have hroot : p ≠ [] := by
    intro hp
    rcases hnc (Or.inr (by simp [g_isDescendentOf, hp]))
  have htne : joinPath q nm ≠ p := fun h => hne (hopath.trans h)
  have hnoop : ¬(q = parentPath p ∧ nm = e.name) := by
    rintro ⟨h1, h2⟩
    apply htne
    have hce := hcanon e hmem (by rw [hpath]; exact hroot)
    rw [hpath] at hce
    rw [h1, h2, joinPath, parentPath]
    exact hce.symm
  have hnc1 : ¬(q = p) := fun h => hnc (Or.inl h)
  have hnc2 : g_isDescendentOf q p = false := by
    cases hgd : g_isDescendentOf q p
    · rfl
    · exact absurd (Or.inr hgd) hnc
  have hcond : (decide (q = p) || g_isDescendentOf q p) = false := by
    simp [hnc1, hnc2]
  constructor
  · simp [f_move, hfind, hq, hg, hw, hnoop, hcond, g_maybeRemove, hocc,
      Except.bind]
  · -- the `overwrite` branch
    have hshapes := f_remove_ok_shapes f (joinPath q nm) oe hocc hw
    have hrem : ∃ f1, f_remove f (joinPath q nm) true = .ok f1 ∧
        f1.entries = removeSubtree f.entries (joinPath q nm) ∧
        f1.undoEnabled = f.undoEnabled := by
      by_cases hu : f.undoEnabled = true
      · by_cases hcm : oe.caps.canUndoMove = true
        · exact ⟨_, hshapes.1 hu hcm, rfl, rfl⟩
        · refine ⟨_, hshapes.2.1 hu (by simpa using hcm), ?_, rfl⟩
          rw [hopath]
      · refine ⟨_, hshapes.2.2 (by simpa using hu), ?_, rfl⟩
        rw [hopath]
    obtain ⟨f1, hf1, hent, -⟩ := hrem
    have hmemf1 : e ∈ f1.entries := by
      rw [hent]
      refine List.mem_filter.mpr ⟨hmem, ?_⟩
      rw [hpath]
      simp [hanc]
    have hfind1 : findNode f1 p = some e := by
      unfold findNode
      apply find_path_unique hmemf1 hpath
      intro y hy hyp
      have hyf : y ∈ f.entries := by
        rw [hent] at hy
        exact (List.mem_filter.mp hy).1
      exact hpuniq y hyf e hmem (by rw [hyp, hpath])
    obtain ⟨f2, hfin, hent2⟩ :=
      f_move_finish_ok f1 p (joinPath q nm) pe.depth nm e hfind1
    refine ⟨f2, ?_, ?_, ?_, moveRewrite_oid _ _ _ _ _, ?_⟩
    · simp [f_move, hfind, hq, hg, hw, hnoop, hcond, g_maybeRemove, hocc,
        Except.bind, hf1, hfin]
    · rw [hent2]
      exact List.mem_map_of_mem _ hmemf1
    · simp [moveRewrite, hpath]
    · intro x hx hoid
      rw [hent2] at hx
      obtain ⟨y, hy, hxy⟩ := List.mem_map.mp hx
      rw [← hxy, moveRewrite_oid] at hoid
      have hyf : y ∈ f.entries := by
        rw [hent] at hy
        exact (List.mem_filter.mp hy).1
      have hyo : y = oe := houniq y hyf oe homem hoid
      rw [hent] at hy
      have hpred := (List.mem_filter.mp hy).2
      rw [hyo, hopath] at hpred
      simp only [Bool.not_eq_true'] at hpred
      have hself : List.isPrefixOf (joinPath q nm) (joinPath q nm) = true :=
        List.isPrefixOf_iff_prefix.mpr ⟨[], by simp⟩
      rw [hself] at hpred
      simp at hpred

/-- Witness for the amended C6: the spec scenario — with leaves `/a` and
`/b`, `move(/a, newname="b")` fails with the name collision; with
`overwrite` it succeeds and `/b` afterwards holds the former `/a` (same
identity), the old `/b`'s identity being gone. -/
theorem f_move_occupied_spec_witness :
    f_move c6wFile ["a"] (some []) (some "b") false =
      .error (.nameCollision, c6wFile) ∧
    ∃ f2, f_move c6wFile ["a"] (some []) (some "b") true = .ok f2 ∧
      (moveRewrite ["a"] (joinPath [] "b") rootNode.depth "b"
        ⟨1, ["a"], "a", 1, false, ⟨true, true, true⟩⟩) ∈ f2.entries ∧
      (moveRewrite ["a"] (joinPath [] "b") rootNode.depth "b"
        ⟨1, ["a"], "a", 1, false, ⟨true, true, true⟩⟩).path = joinPath [] "b" ∧
      (moveRewrite ["a"] (joinPath [] "b") rootNode.depth "b"
        ⟨1, ["a"], "a", 1, false, ⟨true, true, true⟩⟩).oid =
        (⟨1, ["a"], "a", 1, false, ⟨true, true, true⟩⟩ : HNode).oid ∧
      (∀ x ∈ f2.entries, x.oid ≠
        (⟨2, ["b"], "b", 1, false, ⟨true, true, true⟩⟩ : HNode).oid) :=
  f_move_occupied_spec c6wFile ["a"] [] "b"
    ⟨1, ["a"], "a", 1, false, ⟨true, true, true⟩⟩ rootNode
    ⟨2, ["b"], "b", 1, false, ⟨true, true, true⟩⟩
    (by unfold WF; decide) rfl rfl rfl rfl rfl (by decide) (by decide)
    (by decide)

/-- Injectivity of `Except.ok`. -/
theorem ok_inj {ε α : Type} {a b : α}
    (h : (Except.ok a : Except ε α) = .ok b) : a = b := by
  injection h

/-- If a canonical path `pp ++ s` ends in the segment `nm2`, the
nonempty suffix `s` ends in `nm2` as well. -/
theorem suffix_canon {pp s : HPath} {nm2 : String} (hne : s ≠ [])
    (hc : pp ++ s = (pp ++ s).dropLast ++ [nm2]) :
    s = s.dropLast ++ [nm2] := by
  rw [List.dropLast_append_of_ne_nil pp hne, List.append_assoc] at hc
  exact List.append_cancel_left hc

/-- The effect of `moveRewrite` on a proper descendant whose path ends in
its own name: path rewritten by prefix substitution, depth recomputed
from the parent's new path. -/
theorem moveRewrite_descendant (p target : HPath) (peD : Nat) (nm : String)
    (d : HNode) (s : HPath) (hs : p ++ s = d.path) (hne : s ≠ [])
    (hcanon : s = s.dropLast ++ [d.name]) :
    moveRewrite p target peD nm d =
      { d with path := target ++ s,
               depth := countSlash (target ++ s.dropLast) + 1 } := by
  have hnep : d.path ≠ p := by
    rw [← hs]
    intro hcontra
    have h0 : p ++ s = p ++ [] := by rw [List.append_nil]; exact hcontra
    exact hne (List.append_cancel_left h0)
  have hpre : p.isPrefixOf d.path = true :=
    List.isPrefixOf_iff_prefix.mpr ⟨s, hs⟩
  have hdrop : d.path.drop p.length = s := by
    rw [← hs]; exact List.drop_left p s
  unfold moveRewrite
  rw [if_neg hnep, if_pos hpre]
  unfold g_updateLocation joinPath
  rw [hdrop]
  have hpath2 : (target ++ s.dropLast) ++ [d.name] = target ++ s := by
    rw [List.append_assoc, ← hcanon]
  rw [hpath2]

/-- Inversion of a successful `_f_move`: either the allowed no-op fired
(defaults equal the current location, container unchanged), or the full
pipeline ran: the new parent resolved, the self-containment check
passed, `_g_maybeRemove` either found the destination free or pruned the
occupant's subtree, the moved node was still present, and every entry of
the result is the `moveRewrite` image of an entry of the intermediate
container. -/
theorem f_move_ok_inversion (f f2 : HFile) (p : HPath) (np : Option HPath)
    (nn : Option String) (ow : Bool) (e : HNode)
    (hfind : findNode f p = some e)
    (hok : f_move f p np nn ow = .ok f2) :
    (np.getD (parentPath p) = parentPath p ∧ nn.getD e.name = e.name ∧
      f2 = f) ∨
    (∃ pe e1 f1,
      findNode f (np.getD (parentPath p)) = some pe ∧
      (np.getD (parentPath p)) ≠ p ∧
      g_isDescendentOf (np.getD (parentPath p)) p = false ∧
      ((f1.entries = f.entries ∧
        findNode f (joinPath (np.getD (parentPath p)) (nn.getD e.name)) =
          none) ∨
       f1.entries = removeSubtree f.entries
         (joinPath (np.getD (parentPath p)) (nn.getD e.name))) ∧
      findNode f1 p = some e1 ∧
      f2.entries = f1.entries.map
        (moveRewrite p (joinPath (np.getD (parentPath p)) (nn.getD e.name))
          pe.depth (nn.getD e.name))) := by
  unfold f_move at hok
  simp only [hfind] at hok
  by_cases hma : np = none ∧ nn = none
  · rw [if_pos hma] at hok; exact absurd hok (by simp)
  · rw [if_neg hma] at hok
    cases hq2 : findNode f (np.getD (parentPath p)) with
    | none => rw [hq2] at hok; simp at hok
    | some pe =>
      rw [hq2] at hok
      dsimp only at hok
      by_cases hgrp : (!pe.isGroup) = true
      · rw [if_pos hgrp] at hok; exact absurd hok (by simp)
      · rw [if_neg hgrp] at hok
        by_cases hwb : (!f.writable) = true
        · rw [if_pos hwb] at hok; exact absurd hok (by simp)
        · rw [if_neg hwb] at hok
          have hw2 : f.writable = true := by simpa using hwb
          by_cases hno : np.getD (parentPath p) = parentPath p ∧
              nn.getD e.name = e.name
          · rw [if_pos hno] at hok
            exact Or.inl ⟨hno.1, hno.2, (ok_inj hok).symm⟩
          · rw [if_neg hno] at hok
            by_cases hcont : (decide (np.getD (parentPath p) = p) ||
                g_isDescendentOf (np.getD (parentPath p)) p) = true
            · rw [if_pos hcont] at hok; exact absurd hok (by simp)
            · rw [if_neg hcont] at hok
              have hcont1 : np.getD (parentPath p) ≠ p := by
                intro h; exact hcont (by simp [h])
              have hcont2 :
                  g_isDescendentOf (np.getD (parentPath p)) p = false := by
                cases hgd : g_isDescendentOf (np.getD (parentPath p)) p
                · rfl
                · exact absurd (by simp [hgd]) hcont
              obtain ⟨f1, hmr, hfin⟩ := exceptBind_ok hok
              have hf1 : (f1.entries = f.entries ∧
                  findNode f (joinPath (np.getD (parentPath p))
                    (nn.getD e.name)) = none) ∨
                  f1.entries = removeSubtree f.entries
                    (joinPath (np.getD (parentPath p)) (nn.getD e.name)) := by
                unfold g_maybeRemove at hmr
                cases ht : findNode f (joinPath (np.getD (parentPath p))
                    (nn.getD e.name)) with
                | none =>
                  rw [ht] at hmr
                  dsimp only at hmr
                  exact Or.inl ⟨by rw [← ok_inj hmr], rfl⟩
                | some o2 =>
                  rw [ht] at hmr
                  dsimp only at hmr
                  split at hmr
                  · exact absurd hmr (by simp)
                  · right
                    obtain ⟨ho2mem, ho2path⟩ := findNode_eq_some ht
                    have hsh := f_remove_ok_shapes f _ o2 ht hw2
                    by_cases hu : f.undoEnabled = true
                    · by_cases hcm : o2.caps.canUndoMove = true
                      · have hx := ok_inj ((hsh.1 hu hcm).symm.trans hmr)
                        rw [← hx]
                        rfl
                      · have hx := ok_inj
                          ((hsh.2.1 hu (by simpa using hcm)).symm.trans hmr)
                        rw [← hx]
                        exact congrArg (removeSubtree f.entries) ho2path
                    · have hx := ok_inj
                        ((hsh.2.2 (by simpa using hu)).symm.trans hmr)
                      rw [← hx]
                      exact congrArg (removeSubtree f.entries) ho2path
              cases hfe : findNode f1 p with
              | none =>
                have : f_move_finish f1 p
                    (joinPath (np.getD (parentPath p)) (nn.getD e.name))
                    pe.depth (nn.getD e.name) = .error (.attributeError, f1) := by
                  simp [f_move_finish, hfe]
                rw [this] at hfin
                exact absurd hfin (by simp)
              | some e1 =>
                obtain ⟨f2b, hfin2, hent2⟩ := f_move_finish_ok f1 p
                  (joinPath (np.getD (parentPath p)) (nn.getD e.name))
                  pe.depth (nn.getD e.name) e1 hfe
                have hf2 : f2 = f2b := ok_inj (hfin.symm.trans hfin2)
                exact Or.inr ⟨pe, e1, f1, rfl, hcont1, hcont2, hf1, hfe,
                  by rw [hf2, hent2]⟩

/-- C3: after any successful move of a node `N` (old path `pathA`) to
its new location `pathB` (the resolved new parent joined with the new
name), every descendant `D` of `N` appears in the result with its path
rewritten from the `pathA` prefix to the corresponding `pathB` prefix
(same identity), and its depth is exactly its parent's depth plus one,
the parent's rewritten entry being present as well — recursively for the
whole subtree. -/
theorem f_move_updates_descendants (f f2 : HFile) (p : HPath)
    (np : Option HPath) (nn : Option String) (ow : Bool) (e : HNode)
    (hwf : WF f) (hroot : p ≠ [])
    (hfind : findNode f p = some e)
    (hok : f_move f p np nn ow = .ok f2) :
    ∀ d ∈ f.entries, p <+: d.path → d.path ≠ p →
      ∃ d2 ∈ f2.entries,
        d2.path = joinPath (np.getD (parentPath p)) (nn.getD e.name) ++
          d.path.drop p.length ∧
        d2.oid = d.oid ∧
        ∃ pd ∈ f2.entries, pd.path = d2.path.dropLast ∧
          d2.depth = pd.depth + 1 := by
  obtain ⟨hdepth, hcanon, hclosure, hpuniq, houniq⟩ := hwf
  obtain ⟨hmem, hpath⟩ := findNode_eq_some hfind
  intro d hd hd1 hd2
  obtain ⟨s, hs⟩ := hd1
  have hsne : s ≠ [] := by
    rintro rfl
    exact hd2 (by simpa using hs.symm)
  have hdne : d.path ≠ [] := by
    rw [← hs]
    intro h
    exact hroot (List.append_eq_nil.mp h).1
  have hscanon : s = s.dropLast ++ [d.name] := by
    have hc := hcanon d hd hdne
    rw [← hs] at hc
    exact suffix_canon hsne hc
  have hddrop : d.path.drop p.length = s := by
    rw [← hs]; exact List.drop_left p s
  rcases f_move_ok_inversion f f2 p np nn ow e hfind hok with
    ⟨hq, hn, rfl⟩ | ⟨pe, e1, f1, hq2, hc1, hc2, hf1, hfe, hent2⟩
  · -- the allowed no-op: the "new" location is the current one
    have htp : joinPath (np.getD (parentPath p)) (nn.getD e.name) = p := by
      rw [hq, hn]
      have hce := hcanon e hmem (by rw [hpath]; exact hroot)
      rw [hpath] at hce
      unfold joinPath parentPath
      exact hce.symm
    refine ⟨d, hd, ?_, rfl, ?_⟩
    · rw [htp, hddrop, hs]
    · obtain ⟨pd0, hpd0m, hpd0p⟩ := hclosure d hd hdne
      refine ⟨pd0, hpd0m, hpd0p, ?_⟩
      rw [hdepth d hd, hdepth pd0 hpd0m, hpd0p, List.length_dropLast]
      have := List.length_pos.mpr hdne
      omega
  · -- a real move
    set q := np.getD (parentPath p) with hq0
    set nm := nn.getD e.name with hnm0
    set tg := joinPath q nm with htg0
    have htgne : tg ≠ [] := by rw [htg0]; unfold joinPath; simp
    obtain ⟨he1f1, he1p⟩ := findNode_eq_some hfe
    have hnpq : ¬(p <+: q) := by
      intro hpq
      rcases eq_or_ne q p with hqp | hqp
      · exact hc1 hqp
      · have hgd : g_isDescendentOf q p = true := by
          unfold g_isDescendentOf
          rw [if_neg hroot]
          have h1 : p.isPrefixOf q = true := List.isPrefixOf_iff_prefix.mpr hpq
          have h2 : p ≠ q := fun h => hqp h.symm
          simp [h1, h2]
        rw [hc2] at hgd
        exact absurd hgd (by simp)
    have hptg : ¬(p <+: tg) := by
      intro hptg2
      have hq2p : q <+: tg := by
        rw [htg0]; unfold joinPath; exact List.prefix_append q [nm]
      by_cases hlen : p.length ≤ q.length
      · exact hnpq (List.prefix_of_prefix_length_le hptg2 hq2p hlen)
      · have hlt : tg.length = q.length + 1 := by
          rw [htg0]; unfold joinPath; simp
        have hle := hptg2.length_le
        have hpeq : p = tg := hptg2.eq_of_length (by omega)
        rcases hf1 with ⟨-, hnone⟩ | hf1e
        · rw [← hpeq, hfind] at hnone
          exact absurd hnone (by simp)
        · have he1fil := he1f1
          rw [hf1e] at he1fil
          have hpred := (List.mem_filter.mp he1fil).2
          simp only [Bool.not_eq_true'] at hpred
          rw [he1p, ← hpeq] at hpred
          have hself : p.isPrefixOf p = true :=
            List.isPrefixOf_iff_prefix.mpr ⟨[], by simp⟩
          rw [hself] at hpred
          exact absurd hpred (by simp)
    have hkeep : ∀ y ∈ f.entries, p <+: y.path → y ∈ f1.entries := by
      intro y hy hpy
      rcases hf1 with ⟨hf1e, -⟩ | hf1e
      · rw [hf1e]; exact hy
      · have he1fil := he1f1
        rw [hf1e] at he1fil
        have hpredE := (List.mem_filter.mp he1fil).2
        simp only [Bool.not_eq_true'] at hpredE
        rw [he1p] at hpredE
        rw [hf1e]
        refine List.mem_filter.mpr ⟨hy, ?_⟩
        simp only [Bool.not_eq_true']
        cases htg2 : tg.isPrefixOf y.path with
        | false => rfl
        | true =>
          exfalso
          have h1 : tg <+: y.path := List.isPrefixOf_iff_prefix.mp htg2
          rcases List.prefix_or_prefix_of_prefix h1 hpy with hcase | hcase
          · have h3 : tg.isPrefixOf p = true :=
              List.isPrefixOf_iff_prefix.mpr hcase
            exact absurd (hpredE ▸ h3) (by simp)
          · exact hptg hcase
    have hdinf1 : d ∈ f1.entries := hkeep d hd ⟨s, hs⟩
    have hrwd := moveRewrite_descendant p tg pe.depth nm d s hs hsne hscanon
    refine ⟨moveRewrite p tg pe.depth nm d, ?_, ?_,
      moveRewrite_oid p tg pe.depth nm d, ?_⟩
    · rw [hent2]
      exact List.mem_map_of_mem _ hdinf1
    · rw [hrwd, hddrop]
    · rcases eq_or_ne s.dropLast [] with hsd | hsd
      · -- the parent of `d` is the moved node itself
        have hrwe : moveRewrite p tg pe.depth nm e1 =
            { e1 with path := tg, name := nm, depth := pe.depth + 1 } := by
          unfold moveRewrite
          rw [if_pos he1p]
        refine ⟨moveRewrite p tg pe.depth nm e1, ?_, ?_, ?_⟩
        · rw [hent2]; exact List.mem_map_of_mem _ he1f1
        · rw [hrwe, hrwd]
          show tg = (tg ++ s).dropLast
          rw [List.dropLast_append_of_ne_nil tg hsne, hsd, List.append_nil]
        · rw [hrwe, hrwd]
          show countSlash (tg ++ s.dropLast) + 1 = (pe.depth + 1) + 1
          rw [hsd, List.append_nil]
          have hpem := findNode_eq_some hq2
          have hped : pe.depth = q.length := by
            rw [hdepth pe hpem.1, hpem.2]
          have htgl : countSlash tg = q.length + 1 := by
            rw [htg0]; unfold countSlash joinPath
            rw [if_neg (by simp)]
            simp
          omega
      · -- the parent of `d` is itself a proper descendant of `N`
        obtain ⟨pd0, hpd0m, hpd0p⟩ := hclosure d hd hdne
        have hpd0path : p ++ s.dropLast = pd0.path := by
          rw [hpd0p, ← hs, List.dropLast_append_of_ne_nil p hsne]
        have hpd0pre : p <+: pd0.path := ⟨s.dropLast, hpd0path⟩
        have hpd0nonnil : pd0.path ≠ [] := by
          rw [← hpd0path]
          intro h
          exact hroot (List.append_eq_nil.mp h).1
        have hpd0canon : s.dropLast = (s.dropLast).dropLast ++ [pd0.name] := by
          have hc := hcanon pd0 hpd0m hpd0nonnil
          rw [← hpd0path] at hc
          exact suffix_canon hsd hc
        have hpd0in : pd0 ∈ f1.entries := hkeep pd0 hpd0m hpd0pre
        have hrwp := moveRewrite_descendant p tg pe.depth nm pd0 s.dropLast
          hpd0path hsd hpd0canon
        refine ⟨moveRewrite p tg pe.depth nm pd0, ?_, ?_, ?_⟩
        · rw [hent2]; exact List.mem_map_of_mem _ hpd0in
        · rw [hrwp, hrwd]
          show tg ++ s.dropLast = (tg ++ s).dropLast
          rw [List.dropLast_append_of_ne_nil tg hsne]
        · rw [hrwp, hrwd]
          show countSlash (tg ++ s.dropLast) + 1 =
            (countSlash (tg ++ (s.dropLast).dropLast) + 1) + 1
          have h1 : countSlash (tg ++ s.dropLast) =
              tg.length + s.dropLast.length := by
            unfold countSlash
            rw [if_neg (by simp [htgne])]
            simp
          have h2 : countSlash (tg ++ (s.dropLast).dropLast) =
              tg.length + (s.dropLast).dropLast.length := by
            unfold countSlash
            rw [if_neg (by simp [htgne])]
            simp
          have h3 : s.dropLast.length = (s.dropLast).dropLast.length + 1 := by
            have h4 : (s.dropLast).dropLast.length = s.dropLast.length - 1 := by
              rw [List.length_dropLast]
            have h5 := List.length_pos.mpr hsd
            omega
          rw [h1, h2, h3]
          omega

/-- Witness for C3: moving the group `/g1` of `c3File` to `/h` rewrites
the grandchild leaf `/g1/g2/x` to `/h/g2/x`, same identity, with its
depth one more than its rewritten parent `/h/g2`. -/
theorem f_move_updates_descendants_witness :
    ∃ d2 ∈ c3MovedFile.entries,
      d2.path = ["h", "g2", "x"] ∧
      d2.oid = (3 : Nat) ∧
      ∃ pd ∈ c3MovedFile.entries,
        pd.path = d2.path.dropLast ∧ d2.depth = pd.depth + 1 := by
  have h := f_move_updates_descendants c3File c3MovedFile
    ["g1"] (some []) (some "h") false
    ⟨1, ["g1"], "g1", 1, true, ⟨true, true, true⟩⟩
    (by unfold WF; decide) (by decide) rfl rfl
    ⟨3, ["g1", "g2", "x"], "x", 3, false, ⟨true, true, true⟩⟩ (by decide)
    ⟨["g2", "x"], rfl⟩ (by decide)
  exact h
